import Mathlib

/-!
Verification of the bitchat relay daemon core against its specification.

Bytes are modelled as natural numbers (values kept below 256 by the
operations that produce them), byte strings as lists of naturals, and the
Go structures as Lean structures with explicit state passing.  Machine
arithmetic is modelled with explicit `% 2^w` where the Go code works in
`uint32` / `uint64` / `byte`.
-/

set_option maxRecDepth 100000

namespace BitchatRelay

/-! ## SHA-256 (the crypto/sha256 library used by PacketHash and VerifyPoW) -/

/-- 2^32, the modulus of 32-bit words. -/
def w32 : Nat := 4294967296

/-- Addition modulo 2^32. -/
def add32 (a b : Nat) : Nat := (a + b) % w32

/-- Right rotation of a 32-bit word. -/
def rotr32 (x n : Nat) : Nat := ((x >>> n) ||| (x <<< (32 - n))) % w32

/-- Bitwise complement on 32 bits. -/
def not32 (x : Nat) : Nat := Nat.xor x (w32 - 1)

def ch32 (x y z : Nat) : Nat := Nat.xor (x &&& y) (not32 x &&& z)

def maj32 (x y z : Nat) : Nat := Nat.xor (Nat.xor (x &&& y) (x &&& z)) (y &&& z)

def bigSigma0 (x : Nat) : Nat := Nat.xor (Nat.xor (rotr32 x 2) (rotr32 x 13)) (rotr32 x 22)

def bigSigma1 (x : Nat) : Nat := Nat.xor (Nat.xor (rotr32 x 6) (rotr32 x 11)) (rotr32 x 25)

def smallSigma0 (x : Nat) : Nat := Nat.xor (Nat.xor (rotr32 x 7) (rotr32 x 18)) (x >>> 3)

def smallSigma1 (x : Nat) : Nat := Nat.xor (Nat.xor (rotr32 x 17) (rotr32 x 19)) (x >>> 10)

/-- The 64 SHA-256 round constants of FIPS 180-4, written in decimal. -/
def K256 : List Nat :=
  [1116352408, 1899447441, 3049323471, 3921009573,
   961987163, 1508970993, 2453635748, 2870763221,
   3624381080, 310598401, 607225278, 1426881987,
   1925078388, 2162078206, 2614888103, 3248222580,
   3835390401, 4022224774, 264347078, 604807628,
   770255983, 1249150122, 1555081692, 1996064986,
   2554220882, 2821834349, 2952996808, 3210313671,
   3336571891, 3584528711, 113926993, 338241895,
   666307205, 773529912, 1294757372, 1396182291,
   1695183700, 1986661051, 2177026350, 2456956037,
   2730485921, 2820302411, 3259730800, 3345764771,
   3516065817, 3600352804, 4094571909, 275423344,
   430227734, 506948616, 659060556, 883997877,
   958139571, 1322822218, 1537002063, 1747873779,
   1955562222, 2024104815, 2227730452, 2361852424,
   2428436474, 2756734187, 3204031479, 3329325298]

/-- SHA-256 working state: eight 32-bit words. -/
structure Hash8 where
  a : Nat
  b : Nat
  c : Nat
  d : Nat
  e : Nat
  f : Nat
  g : Nat
  h : Nat

/-- Initial SHA-256 hash value of FIPS 180-4, written in decimal. -/
def initH : Hash8 :=
  ⟨1779033703, 3144134277, 1013904242, 2773480762,
   1359893119, 2600822924, 528734635, 1541459225⟩

/-- Big-endian 8-byte encoding of a natural number below 2^64. -/
def be64 (n : Nat) : List Nat :=
  [n / 2 ^ 56 % 256, n / 2 ^ 48 % 256, n / 2 ^ 40 % 256, n / 2 ^ 32 % 256,
   n / 2 ^ 24 % 256, n / 2 ^ 16 % 256, n / 2 ^ 8 % 256, n % 256]

/-- SHA-256 padding: append 0x80, zeros to 56 mod 64, then the bit length. -/
def shaPad (msg : List Nat) : List Nat :=
  msg ++ 128 :: List.replicate ((119 - msg.length % 64) % 64) 0 ++ be64 (8 * msg.length)

/-- Split a list into chunks of 64, with explicit fuel for structural recursion. -/
def chunks64Aux : Nat → List Nat → List (List Nat)
  | 0, _ => []
  | _, [] => []
  | fuel + 1, l => l.take 64 :: chunks64Aux fuel (l.drop 64)

def chunks64 (l : List Nat) : List (List Nat) := chunks64Aux l.length l

/-- Assemble big-endian 32-bit words from groups of four bytes. -/
def toWordsAux : Nat → List Nat → List Nat
  | 0, _ => []
  | _, [] => []
  | fuel + 1, l =>
      (((l.getD 0 0 % 256 * 256 + l.getD 1 0 % 256) * 256 + l.getD 2 0 % 256) * 256
        + l.getD 3 0 % 256) :: toWordsAux fuel (l.drop 4)

def toWords (l : List Nat) : List Nat := toWordsAux l.length l

/-- Extend the 16 block words to the 64-entry message schedule. -/
def extendSchedule (ws : List Nat) : List Nat :=
  (List.range 48).foldl
    (fun acc i =>
      acc ++ [add32 (add32 (smallSigma1 (acc.getD (i + 14) 0)) (acc.getD (i + 9) 0))
               (add32 (smallSigma0 (acc.getD (i + 1) 0)) (acc.getD i 0))])
    ws

/-- One SHA-256 compression round, taking the round constant and schedule word. -/
def compressStep (st : Hash8) (kw : Nat × Nat) : Hash8 :=
  let t1 := add32 st.h (add32 (bigSigma1 st.e) (add32 (ch32 st.e st.f st.g) (add32 kw.1 kw.2)))
  let t2 := add32 (bigSigma0 st.a) (maj32 st.a st.b st.c)
  ⟨add32 t1 t2, st.a, st.b, st.c, add32 st.d t1, st.e, st.f, st.g⟩

/-- Process one 64-byte block. -/
def processBlock (st : Hash8) (block : List Nat) : Hash8 :=
  let ws := extendSchedule (toWords block)
  let u := (K256.zip ws).foldl compressStep st
  ⟨add32 st.a u.a, add32 st.b u.b, add32 st.c u.c, add32 st.d u.d,
   add32 st.e u.e, add32 st.f u.f, add32 st.g u.g, add32 st.h u.h⟩

/-- Big-endian 4-byte rendering of a 32-bit word. -/
def wordBytes (w : Nat) : List Nat :=
  [w / 2 ^ 24 % 256, w / 2 ^ 16 % 256, w / 2 ^ 8 % 256, w % 256]

/-- SHA-256 of a byte string, as a 32-byte digest. -/
def sha256 (msg : List Nat) : List Nat :=
  let st := (chunks64 (shaPad msg)).foldl processBlock initH
  wordBytes st.a ++ wordBytes st.b ++ wordBytes st.c ++ wordBytes st.d ++
  wordBytes st.e ++ wordBytes st.f ++ wordBytes st.g ++ wordBytes st.h

/-! ## Packet hashing and deduplication (dedup source file) -/

/-- PacketHash returns the first 8 bytes of SHA-256 of the packet. -/
def PacketHash (data : List Nat) : List Nat := (sha256 data).take 8

/-- DedupFilter: the set of recently seen 8-byte packet hashes and its
capacity, mirroring the Go struct (the mutex is irrelevant in the
sequential model). -/
structure DedupFilter where
  seen : Finset (List Nat)
  max : Nat

def NewDedupFilter (maxEntries : Nat) : DedupFilter := ⟨∅, maxEntries⟩

/-- IsDuplicate: true and unchanged state when the hash was seen; otherwise
record the hash (clearing the whole set first when it is at capacity) and
return false.  Returns the answer together with the updated filter. -/
def IsDuplicate (d : DedupFilter) (hash : List Nat) : Bool × DedupFilter :=
  if hash ∈ d.seen then (true, d)
  else if d.max ≤ d.seen.card then (false, ⟨{hash}, d.max⟩)
  else (false, ⟨insert hash d.seen, d.max⟩)

/-! ## Proof of work (pow source file) -/

/-- hasLeadingZeros from the Go source: the first n/8 bytes must be zero and,
when n % 8 > 0, the top n % 8 bits of the next byte must be zero
(mask = byte(0xFF << (8 - rem))). -/
def hasLeadingZeros (hash : List Nat) (n : Nat) : Bool :=
  ((List.range (n / 8)).all fun i => hash.getD i 0 == 0) &&
  (if n % 8 > 0 then (hash.getD (n / 8) 0 &&& ((255 <<< (8 - n % 8)) % 256)) == 0 else true)

/-- VerifyPoW: SHA-256 of the 32-byte nonce followed by the 8-byte
big-endian solution must have at least `difficulty` leading zero bits. -/
def VerifyPoW (nonce : List Nat) (solution : Nat) (difficulty : Nat) : Bool :=
  hasLeadingZeros (sha256 (nonce ++ be64 solution)) difficulty

/-- The brute-force loop of SolvePoW, with fuel for the remaining number of
candidate solutions (the Go loop stops with an error after exhausting the
uint64 space). -/
def solvePoWAux (nonce : List Nat) (difficulty : Nat) : Nat → Nat → Option Nat
  | _, 0 => none
  | sol, fuel + 1 =>
      if hasLeadingZeros (sha256 (nonce ++ be64 sol)) difficulty then some sol
      else solvePoWAux nonce difficulty (sol + 1) fuel

/-- SolvePoW tries solutions 0, 1, 2, … over the whole uint64 space. -/
def SolvePoW (nonce : List Nat) (difficulty : Nat) : Option Nat :=
  solvePoWAux nonce difficulty 0 (2 ^ 64)

/-! ## Frame codec (frame source file) -/

/-- Default MaxPacketSize from DefaultConfig. -/
def MaxPacketSize : Nat := 65536

structure Frame where
  type : Nat
  payload : List Nat
deriving DecidableEq

/-- Big-endian 4-byte rendering of a uint32 value. -/
def be32 (n : Nat) : List Nat := [n / 2 ^ 24 % 256, n / 2 ^ 16 % 256, n / 2 ^ 8 % 256, n % 256]

/-- WriteFrame emits [1-byte type][4-byte big-endian length][payload]; the
length is truncated to uint32 as in the Go conversion. -/
def WriteFrame (frameType : Nat) (payload : List Nat) : List Nat :=
  frameType :: be32 (payload.length % 2 ^ 32) ++ payload

/-- ReadFrame parses a frame from the head of a byte stream: it needs the
5-byte header, rejects a length above maxPayload, then needs the full
payload.  Returns the frame and the unread remainder of the stream;
`none` models the error returns of the Go function. -/
def ReadFrame (maxPayload : Nat) (stream : List Nat) : Option (Frame × List Nat) :=
  match stream with
  | t :: b0 :: b1 :: b2 :: b3 :: rest =>
      let len := ((b0 * 256 + b1) * 256 + b2) * 256 + b3
      if maxPayload < len then none
      else if rest.length < len then none
      else some (⟨t, rest.take len⟩, rest.drop len)
  | _ => none

/-! ## Ring buffer (PacketBuffer) -/

/-- PacketBuffer: a fixed array of slots (`none` = Go nil entry), the write
head, and the entry count. -/
structure PacketBuffer where
  packets : List (Option (List Nat))
  size : Nat
  head : Nat
  count : Nat

def NewPacketBuffer (size : Nat) : PacketBuffer :=
  ⟨List.replicate size none, size, 0, 0⟩

/-- Add stores the packet at the head, advances the head modulo size, and
caps the count at size. -/
def PacketBuffer.Add (pb : PacketBuffer) (data : List Nat) : PacketBuffer :=
  ⟨pb.packets.set pb.head (some data), pb.size, (pb.head + 1) % pb.size,
   if pb.count < pb.size then pb.count + 1 else pb.count⟩

/-- GetAll walks count slots starting at head - count (wrapped into range as
in the Go int fixup), skipping nil slots, oldest first. -/
def PacketBuffer.GetAll (pb : PacketBuffer) : List (List Nat) :=
  let start := if pb.count ≤ pb.head then pb.head - pb.count else pb.head + pb.size - pb.count
  ((List.range pb.count).map fun i => pb.packets.getD ((start + i) % pb.size) none).reduceOption

/-! ## Token bucket (ratelimit source file)

The float64 token count is modelled with exact rational arithmetic; time
instants are passed explicitly to Allow in place of time.Now(). -/

structure TokenBucket where
  tokens : ℚ
  maxTokens : ℚ
  refillRate : ℚ
  lastRefill : ℚ

def NewTokenBucket (rate : ℚ) (burst : ℤ) (now : ℚ) : TokenBucket :=
  ⟨(burst : ℚ), (burst : ℚ), rate, now⟩

/-- Allow refills by rate × elapsed, caps at maxTokens, and admits
(consuming one token) exactly when at least one token is available. -/
def TokenBucket.Allow (tb : TokenBucket) (now : ℚ) : Bool × TokenBucket :=
  let t1 := tb.tokens + (now - tb.lastRefill) * tb.refillRate
  let t2 := if tb.maxTokens < t1 then tb.maxTokens else t1
  if 1 ≤ t2 then (true, ⟨t2 - 1, tb.maxTokens, tb.refillRate, now⟩)
  else (false, ⟨t2, tb.maxTokens, tb.refillRate, now⟩)

/-- Run Allow at each time of the list in order, counting admissions. -/
def runAllow : TokenBucket → List ℚ → Nat × TokenBucket
  | tb, [] => (0, tb)
  | tb, t :: ts =>
      ((if (tb.Allow t).1 then 1 else 0) + (runAllow (tb.Allow t).2 ts).1,
       (runAllow (tb.Allow t).2 ts).2)

/-! ## Relay key load (NewRelayAuth, auth source file) -/

/-- ed25519.PrivateKeySize. -/
def ed25519PrivateKeySize : Nat := 64

/-- Result of the load-or-generate step of NewRelayAuth: the private key in
use and whether the generate-and-write branch ran (writing the key file). -/
structure KeyLoadResult where
  privateKey : List Nat
  generated : Bool
deriving DecidableEq

/-- The key branch of NewRelayAuth: use the file contents when the read
succeeded and the data has the canonical size, else generate a fresh key
and write it.  `file` is the outcome of os.ReadFile (`none` = error, in
particular a missing file), `fresh` the keypair a generation would yield. -/
def loadOrGenerateKey (file : Option (List Nat)) (fresh : List Nat) : KeyLoadResult :=
  match file with
  | some data => if data.length = ed25519PrivateKeySize then ⟨data, false⟩ else ⟨fresh, true⟩
  | none => ⟨fresh, true⟩

/-! ## Mesh receive step (RecvLoop, mesh source file) -/

def pubKeyLen : Nat := 32

def certLen : Nat := 64

def sigLen : Nat := 64

def caHeaderLen : Nat := pubKeyLen + certLen + sigLen

/-- The authentication context of the receive loop.  The Ed25519 and CA
checks are oracles so that properties can be stated for every possible
outcome of signature verification. -/
structure AuthModel where
  selfKey : List Nat
  revoked : List Nat → Bool
  hasCA : Bool
  verifyCert : List Nat → List Nat → Bool
  verifySig : List Nat → List Nat → List Nat → Bool

/-- One iteration of RecvLoop on a received datagram `buf`.  Returns the
payload delivered to Router.RouteFromMesh (`none` when the packet is
dropped) together with the number of Ed25519 verification operations
(certificate or packet signature) performed before the iteration ended. -/
def recvStep (a : AuthModel) (buf : List Nat) : Option (List Nat) × Nat :=
  let n := buf.length
  if n ≤ pubKeyLen + sigLen then (none, 0)
  else
    let pubKey := buf.take pubKeyLen
    if pubKey = a.selfKey then (none, 0)
    else if a.revoked pubKey then (none, 0)
    else if a.hasCA then
      if n ≤ caHeaderLen then (none, 0)
      else
        let cert := (buf.drop pubKeyLen).take certLen
        let sig := (buf.drop (pubKeyLen + certLen)).take sigLen
        let data := buf.drop caHeaderLen
        if ¬ a.verifyCert pubKey cert then (none, 1)
        else if ¬ a.verifySig pubKey sig data then (none, 2)
        else (some data, 2)
    else
      let sig := (buf.drop pubKeyLen).take sigLen
      let data := buf.drop (pubKeyLen + sigLen)
      if ¬ a.verifySig pubKey sig data then (none, 1)
      else (some data, 1)

/-! ## Router (router source file)

Clients are identified by numbers; SendData calls and mesh emissions are
recorded in an emission trace.  The Go client set is a list (the claims
settled here do not depend on the map iteration order). -/

inductive Emit where
  | toClient (c : Nat) (data : List Nat)
  | toMesh (data : List Nat)
deriving DecidableEq

structure RouterState where
  clients : List Nat
  buffer : PacketBuffer
  dedup : DedupFilter
  hasMesh : Bool

def NewRouter (bufferSize dedupMaxEntries : Nat) : RouterState :=
  ⟨[], NewPacketBuffer bufferSize, NewDedupFilter dedupMaxEntries, false⟩

/-- AddClient registers the client and then synchronously sends it every
buffered packet, oldest first. -/
def AddClient (r : RouterState) (c : Nat) : RouterState × List Emit :=
  ({ r with clients := r.clients ++ [c] }, r.buffer.GetAll.map (Emit.toClient c))

/-- RouteFromClient: drop duplicates; otherwise buffer, fan out to every
client except the sender, and emit to the mesh link when one is set. -/
def RouteFromClient (r : RouterState) (sender : Nat) (data : List Nat) : RouterState × List Emit :=
  let res := IsDuplicate r.dedup (PacketHash data)
  if res.1 then ({ r with dedup := res.2 }, [])
  else
    ({ r with dedup := res.2, buffer := r.buffer.Add data },
     ((r.clients.filter fun c => c ≠ sender).map fun c => Emit.toClient c data) ++
       (if r.hasMesh then [Emit.toMesh data] else []))

/-- RouteFromMesh: drop duplicates; otherwise buffer and fan out to every
local client. -/
def RouteFromMesh (r : RouterState) (data : List Nat) : RouterState × List Emit :=
  let res := IsDuplicate r.dedup (PacketHash data)
  if res.1 then ({ r with dedup := res.2 }, [])
  else
    ({ r with dedup := res.2, buffer := r.buffer.Add data },
     r.clients.map fun c => Emit.toClient c data)

inductive RouterOp where
  | fromClient (sender : Nat) (data : List Nat)
  | fromMesh (data : List Nat)
  | addClient (c : Nat)
deriving DecidableEq

def stepOp (r : RouterState) : RouterOp → RouterState × List Emit
  | RouterOp.fromClient sender data => RouteFromClient r sender data
  | RouterOp.fromMesh data => RouteFromMesh r data
  | RouterOp.addClient c => AddClient r c

/-- Run a sequence of router operations, concatenating the emission traces. -/
def runOps : RouterState → List RouterOp → RouterState × List Emit
  | r, [] => (r, [])
  | r, op :: ops =>
      ((runOps (stepOp r op).1 ops).1, (stepOp r op).2 ++ (runOps (stepOp r op).1 ops).2)

/-- The payload routed by an operation, if it is a routing operation. -/
def RouterOp.routedData : RouterOp → Option (List Nat)
  | RouterOp.fromClient _ data => some data
  | RouterOp.fromMesh data => some data
  | RouterOp.addClient _ => none

/-- The packet an emission delivers to client c, if any. -/
def emitTo (c : Nat) : Emit → Option (List Nat)
  | Emit.toClient c2 data => if c2 = c then some data else none
  | Emit.toMesh _ => none

/-- The packets a given client receives from an emission trace, in order. -/
def sentTo (c : Nat) (trace : List Emit) : List (List Nat) :=
  trace.filterMap (emitTo c)

/-! ## Validation of the SHA-256 embedding against the NIST test vectors -/

theorem sha256_vector_empty : sha256 [] =
    [227, 176, 196, 66, 152, 252, 28, 20,
     154, 251, 244, 200, 153, 111, 185, 36,
     39, 174, 65, 228, 100, 155, 147, 76,
     164, 149, 153, 27, 120, 82, 184, 85] := by decide

theorem sha256_vector_abc : sha256 [97, 98, 99] =
    [186, 120, 22, 191, 143, 1, 207, 234,
     65, 65, 64, 222, 93, 174, 34, 35,
     176, 3, 97, 163, 150, 23, 122, 156,
     180, 16, 255, 97, 242, 0, 21, 173] := by decide

/-! ## Claim C1: relay key generation on a malformed key file -/

/-- Claim C1 counterexample: a key file that is present but has the wrong
size (here 3 bytes) makes NewRelayAuth run the generate-and-write branch,
so the keypair is generated even though the key file is not absent. -/
theorem keygen_on_malformed_counterexample :
    (loadOrGenerateKey (some [0, 1, 2]) (List.replicate 64 7)).generated = true
    ∧ some [0, 1, 2] ≠ (none : Option (List Nat)) := by
  exact ⟨rfl, by simp⟩

/-- Claim C1 (amended): NewRelayAuth generates a keypair and writes the key
file exactly when the key file is absent (read error) or present with a
size other than ed25519.PrivateKeySize; a key file of the canonical size
is loaded verbatim and nothing is generated or written.  A
present-but-malformed key file is therefore silently replaced, not an
error the operator must resolve. -/
theorem keygen_iff_absent_or_malformed (file : Option (List Nat)) (fresh : List Nat) :
    ((loadOrGenerateKey file fresh).generated = true ↔
      file = none ∨ ∃ data, file = some data ∧ data.length ≠ ed25519PrivateKeySize)
    ∧ (∀ data, file = some data → data.length = ed25519PrivateKeySize →
        loadOrGenerateKey file fresh = ⟨data, false⟩) := by
  constructor
  · cases file with
    | none => simp [loadOrGenerateKey]
    | some data =>
        by_cases hlen : data.length = ed25519PrivateKeySize <;>
          simp [loadOrGenerateKey, hlen]
  · intro data hfile hlen
    subst hfile
    simp [loadOrGenerateKey, hlen]

/-- Witness for the amended claim C1 at a concrete well-formed key file. -/
theorem keygen_iff_absent_or_malformed_witness :
    loadOrGenerateKey (some (List.replicate 64 5)) [9] = ⟨List.replicate 64 5, false⟩ :=
  (keygen_iff_absent_or_malformed (some (List.replicate 64 5)) [9]).2
    (List.replicate 64 5) rfl (by decide)

/-! ## Claim C2: self-echo and revocation gate the mesh receive loop -/

/-- Claim C2: a mesh datagram is delivered to RouteFromMesh only when its
32-byte sender key differs from the relay's own key and is not revoked;
a self-echoed or revoked packet is dropped with zero Ed25519 verification
operations performed, for every possible behaviour of certificate and
signature verification. -/
theorem recvLoop_self_revoked_gate (a : AuthModel) (buf : List Nat) :
    (∀ d, (recvStep a buf).1 = some d →
       buf.take pubKeyLen ≠ a.selfKey ∧ a.revoked (buf.take pubKeyLen) = false)
    ∧ ((buf.take pubKeyLen = a.selfKey ∨ a.revoked (buf.take pubKeyLen) = true) →
       recvStep a buf = (none, 0)) := by
  constructor
  · intro d hd
    simp only [recvStep] at hd
    split_ifs at hd <;> simp_all
  · intro hgate
    simp only [recvStep]
    rcases hgate with hself | hrev
    · split_ifs <;> simp_all
    · split_ifs <;> simp_all

/-- Witness for claim C2: a concrete datagram from a revoked sender is
dropped with no verification performed. -/
theorem recvLoop_self_revoked_gate_witness :
    recvStep
      ⟨List.replicate 32 1, fun k => k = List.replicate 32 2, false,
       fun _ _ => true, fun _ _ _ => true⟩
      (List.replicate 32 2 ++ List.replicate 65 0) = (none, 0) :=
  (recvLoop_self_revoked_gate _ _).2 (Or.inr (by decide))

/-! ## Claim C10: bare-header datagrams are dropped; payloads are nonempty -/

/-- Claim C10: a datagram no longer than the bare header (96 bytes in open
mode, 160 bytes in CA mode) is dropped without any signature
verification, and every payload that reaches RouteFromMesh is nonempty,
so a mesh message with an empty payload is never delivered. -/
theorem recvLoop_bare_header_discard (a : AuthModel) (buf : List Nat) :
    (a.hasCA = false → buf.length ≤ pubKeyLen + sigLen → recvStep a buf = (none, 0))
    ∧ (a.hasCA = true → buf.length ≤ caHeaderLen → recvStep a buf = (none, 0))
    ∧ (∀ d, (recvStep a buf).1 = some d → d ≠ []) := by
  refine ⟨?_, ?_, ?_⟩
  · intro hca hlen
    simp only [recvStep]
    split_ifs <;> simp_all
  · intro hca hlen
    simp only [recvStep]
    split_ifs <;>
      simp_all [pubKeyLen, sigLen, certLen, caHeaderLen]
  · intro d hd
    simp only [recvStep] at hd
    split_ifs at hd <;>
      simp_all [pubKeyLen, sigLen, certLen, caHeaderLen] <;>
      (subst hd; simp only [List.drop_eq_nil_iff, not_le]; omega)

/-- Witness for claim C10: a concrete 96-byte open-mode datagram is dropped
with no verification performed. -/
theorem recvLoop_bare_header_discard_witness :
    recvStep
      ⟨List.replicate 32 1, fun _ => false, false, fun _ _ => true, fun _ _ _ => true⟩
      (List.replicate 96 0) = (none, 0) :=
  (recvLoop_bare_header_discard _ _).1 rfl (by decide)

/-! ## Claim C7: frame codec round trip -/

/-- The five header bytes written by WriteFrame decode back to the payload
length when the length fits a uint32. -/
theorem be32_decode (n : Nat) (hn : n < 2 ^ 32) :
    ((n / 2 ^ 24 % 256 * 256 + n / 2 ^ 16 % 256) * 256 + n / 2 ^ 8 % 256) * 256 + n % 256
      = n := by
  omega

/-- Claim C7: for every frame type and payload of length at most
MaxPacketSize, ReadFrame on the bytes produced by WriteFrame returns
exactly that frame, consuming the whole stream. -/
theorem frame_round_trip (t : Nat) (p : List Nat)
    (ht : t < 256) (hp : p.length ≤ MaxPacketSize) :
    ReadFrame MaxPacketSize (WriteFrame t p) = some (⟨t, p⟩, []) := by
  have hlt : p.length < 2 ^ 32 := by
    unfold MaxPacketSize at hp
    omega
  have hmod : p.length % 2 ^ 32 = p.length := Nat.mod_eq_of_lt hlt
  simp only [WriteFrame, be32, ReadFrame, hmod, be32_decode p.length hlt]
  have h1 : ¬ MaxPacketSize < p.length := by omega
  have h2 : ¬ p.length < p.length := by omega
  simp [h1, h2]
  unfold MaxPacketSize at *
  omega

/-- Witness for claim C7 at a concrete frame. -/
theorem frame_round_trip_witness :
    ReadFrame MaxPacketSize (WriteFrame 16 [1, 2, 3]) = some (⟨16, [1, 2, 3]⟩, []) :=
  frame_round_trip 16 [1, 2, 3] (by decide) (by decide)

/-! ## Claim C3: packet hash and dedup idempotence -/

/-- Claim C3 counterexample: with capacity 1, the hash [1] is inserted by
the first call, yet a later call with the same hash returns false,
because the intervening insertion of [2] reached capacity and cleared the
set; so not every later call with an inserted hash returns true. -/
theorem isDuplicate_later_call_counterexample :
    (IsDuplicate (NewDedupFilter 1) [1]).1 = false
    ∧ (IsDuplicate (IsDuplicate (NewDedupFilter 1) [1]).2 [2]).1 = false
    ∧ (IsDuplicate (IsDuplicate (IsDuplicate (NewDedupFilter 1) [1]).2 [2]).2 [1]).1
        = false := by
  refine ⟨?_, ?_, ?_⟩ <;> rfl

/-- Claim C3 (amended): PacketHash is the first 8 bytes of SHA-256;
IsDuplicate returns true and leaves the filter unchanged when the hash is
present, otherwise returns false and inserts it, clearing the whole set
first when it is at capacity; and IsDuplicate is idempotent after the
first insertion as long as the set has not been cleared in between — in
particular an immediate repetition of the call returns true and is the
identity on the filter. -/
theorem packetHash_and_isDuplicate_spec (p : List Nat) (d : DedupFilter) (h : List Nat) :
    PacketHash p = (sha256 p).take 8
    ∧ (h ∈ d.seen → IsDuplicate d h = (true, d))
    ∧ (h ∉ d.seen → (IsDuplicate d h).1 = false
        ∧ (IsDuplicate d h).2.seen
            = (if d.max ≤ d.seen.card then {h} else insert h d.seen)
        ∧ h ∈ (IsDuplicate d h).2.seen)
    ∧ IsDuplicate (IsDuplicate d h).2 h = (true, (IsDuplicate d h).2) := by
  refine ⟨rfl, ?_, ?_, ?_⟩
  · intro hmem
    simp [IsDuplicate, hmem]
  · intro hmem
    by_cases hcap : d.max ≤ d.seen.card <;> simp [IsDuplicate, hmem, hcap]
  · by_cases hmem : h ∈ d.seen
    · simp [IsDuplicate, hmem]
    · by_cases hcap : d.max ≤ d.seen.card <;> simp [IsDuplicate, hmem, hcap]

/-- Witness for the amended claim C3: a present hash answers true and
leaves the filter unchanged. -/
theorem packetHash_and_isDuplicate_spec_witness :
    IsDuplicate ⟨{[5]}, 10⟩ [5] = (true, ⟨{[5]}, 10⟩) :=
  (packetHash_and_isDuplicate_spec [] ⟨{[5]}, 10⟩ [5]).2.1 (by decide)

/-! ## Claim C6: proof-of-work verification -/

/-- A byte is zero exactly when its eight bits are all clear. -/
theorem byte_zero_iff_bits : ∀ b, b < 256 → (b = 0 ↔ ∀ k, k < 8 → b.testBit k = false) := by
  decide

/-- Masking with byte(0xFF << (8 - r)) tests exactly the top r bits. -/
theorem byte_mask_iff_bits : ∀ b, b < 256 → ∀ r, r < 8 → 0 < r →
    ((b &&& ((255 <<< (8 - r)) % 256)) = 0 ↔
      ∀ k, k < 8 → 8 - r ≤ k → b.testBit k = false) := by
  decide

theorem wordBytes_lt (w : Nat) : ∀ b ∈ wordBytes w, b < 256 := by
  intro b hb
  simp only [wordBytes, List.mem_cons, List.not_mem_nil, or_false] at hb
  rcases hb with hb | hb | hb | hb <;> omega

theorem sha256_byte_lt (msg : List Nat) : ∀ b ∈ sha256 msg, b < 256 := by
  intro b hb
  simp only [sha256, List.mem_append] at hb
  rcases hb with ((((((h | h) | h) | h) | h) | h) | h) | h <;> exact wordBytes_lt _ _ h

theorem sha256_getD_lt (msg : List Nat) (i : Nat) : (sha256 msg).getD i 0 < 256 := by
  by_cases hi : i < (sha256 msg).length
  · rw [List.getD_eq_getElem _ _ hi]
    exact sha256_byte_lt msg _ (List.getElem_mem hi)
  · rw [List.getD_eq_default _ _ (le_of_not_lt hi)]
    norm_num

/-- hasLeadingZeros answers true exactly when the first n bits of the hash,
counted from the most-significant bit of byte 0, are all zero. -/
theorem hasLeadingZeros_iff (hash : List Nat) (n : Nat)
    (hbytes : ∀ i, hash.getD i 0 < 256) :
    hasLeadingZeros hash n = true ↔
      ∀ j, j < n → (hash.getD (j / 8) 0).testBit (7 - j % 8) = false := by
  unfold hasLeadingZeros
  simp only [Bool.and_eq_true, List.all_eq_true, List.mem_range, beq_iff_eq, gt_iff_lt]
  constructor
  · rintro ⟨hfull, hrem⟩ j hj
    have hcase : j / 8 < n / 8 ∨ (j / 8 = n / 8 ∧ j % 8 < n % 8) := by omega
    rcases hcase with hq | ⟨hq, hr⟩
    · rw [hfull _ hq]
      exact Nat.zero_testBit _
    · rw [hq]
      have h0 : 0 < n % 8 := by omega
      rw [if_pos h0, beq_iff_eq] at hrem
      have hmask := (byte_mask_iff_bits _ (hbytes (n / 8)) (n % 8)
        (Nat.mod_lt _ (by norm_num)) h0).1 hrem
      exact hmask (7 - j % 8) (by omega) (by omega)
  · intro hbits
    constructor
    · intro i hi
      refine (byte_zero_iff_bits _ (hbytes i)).2 ?_
      intro k hk
      have hbit := hbits (8 * i + (7 - k)) (by omega)
      have hdiv : (8 * i + (7 - k)) / 8 = i := by omega
      have hmod : 7 - (8 * i + (7 - k)) % 8 = k := by omega
      rw [hdiv, hmod] at hbit
      exact hbit
    · by_cases h0 : 0 < n % 8
      · rw [if_pos h0, beq_iff_eq]
        refine (byte_mask_iff_bits _ (hbytes (n / 8)) (n % 8)
          (Nat.mod_lt _ (by norm_num)) h0).2 ?_
        intro k hk hge
        have hbit := hbits (8 * (n / 8) + (7 - k)) (by omega)
        have hdiv : (8 * (n / 8) + (7 - k)) / 8 = n / 8 := by omega
        have hmod : 7 - (8 * (n / 8) + (7 - k)) % 8 = k := by omega
        rw [hdiv, hmod] at hbit
        exact hbit
      · rw [if_neg h0]

/-- The brute-force loop only returns solutions that verify. -/
theorem solvePoWAux_sound (nonce : List Nat) (difficulty : Nat) :
    ∀ (fuel sol s2 : Nat), solvePoWAux nonce difficulty sol fuel = some s2 →
      hasLeadingZeros (sha256 (nonce ++ be64 s2)) difficulty = true := by
  intro fuel
  induction fuel with
  | zero => intro sol s2 h; simp [solvePoWAux] at h
  | succ fuel ih =>
      intro sol s2 h
      rw [solvePoWAux] at h
      split_ifs at h with hcheck
      · injection h with h2
        subst h2
        exact hcheck
      · exact ih _ _ h

/-- Claim C6: for every 32-byte nonce, uint8 difficulty and uint64 solution,
VerifyPoW answers true exactly when SHA-256 of the nonce followed by the
8-byte big-endian solution has at least `difficulty` leading zero bits
(counted from the most-significant bit of byte 0), and any solution
returned by SolvePoW verifies. -/
theorem verifyPoW_spec (n : List Nat) (s d : Nat)
    (hn : n.length = 32) (hd : d < 256) (hs : s < 2 ^ 64) :
    (VerifyPoW n s d = true ↔
      ∀ j, j < d → ((sha256 (n ++ be64 s)).getD (j / 8) 0).testBit (7 - j % 8) = false)
    ∧ (∀ s2, SolvePoW n d = some s2 → VerifyPoW n s2 d = true) := by
  constructor
  · exact hasLeadingZeros_iff _ d (fun i => sha256_getD_lt _ i)
  · intro s2 hs2
    exact solvePoWAux_sound n d _ _ _ hs2

/-- Witness for claim C6 at the all-zero nonce with difficulty 0. -/
theorem verifyPoW_spec_witness :
    VerifyPoW (List.replicate 32 0) 1 0 = true :=
  (verifyPoW_spec (List.replicate 32 0) 1 0 (by decide) (by decide) (by decide)).1.mpr
    (fun j hj => absurd hj (Nat.not_lt_zero j))

/-- The PoW round-trip scenario of the specification: with the all-zero
nonce and solution 0, difficulty 0 passes and difficulty 8 fails (the
digest starts with the byte 0x2c, which has two leading zero bits). -/
theorem powScenario :
    VerifyPoW (List.replicate 32 0) 0 0 = true
    ∧ VerifyPoW (List.replicate 32 0) 0 2 = true
    ∧ VerifyPoW (List.replicate 32 0) 0 3 = false
    ∧ VerifyPoW (List.replicate 32 0) 0 8 = false := by
  decide

/-! ## Claim C8: ring buffer -/

theorem reduceOption_map_some {α : Type _} (l : List α) : (l.map some).reduceOption = l := by
  induction l with
  | nil => rfl
  | cons x xs ih => simp [List.reduceOption_cons_of_some, ih]

/-- Reading a list from position k onwards, one index at a time, is drop k. -/
theorem range_getD_drop {α : Type _} (ps : List α) (d : α) (k : Nat) :
    (List.range (ps.length - k)).map (fun i => ps.getD (k + i) d) = ps.drop k := by
  apply List.ext_getElem?
  intro i
  rw [List.getElem?_map, List.getElem?_drop]
  by_cases hi : i < ps.length - k
  · have hki : k + i < ps.length := by omega
    rw [List.getElem?_range hi, Option.map_some', List.getElem?_eq_getElem hki]
    simp [List.getD_eq_getElem?_getD, List.getElem?_eq_getElem hki]
  · have h1 : (List.range (ps.length - k)).length ≤ i := by
      simpa using hi
    have h2 : ps.length ≤ k + i := by omega
    rw [List.getElem?_eq_none h1, List.getElem?_eq_none h2, Option.map_none']

/-- The state invariant of the ring buffer after inserting the packets of
ps into a fresh buffer of positive capacity N: packet number m lives in
slot m % N as long as fewer than N packets came after it. -/
theorem addFold_inv (N : Nat) (hN : 0 < N) (ps : List (List Nat)) :
    (ps.foldl PacketBuffer.Add (NewPacketBuffer N)).size = N
    ∧ (ps.foldl PacketBuffer.Add (NewPacketBuffer N)).packets.length = N
    ∧ (ps.foldl PacketBuffer.Add (NewPacketBuffer N)).head = ps.length % N
    ∧ (ps.foldl PacketBuffer.Add (NewPacketBuffer N)).count = min ps.length N
    ∧ ∀ m, m < ps.length → ps.length - N ≤ m →
        (ps.foldl PacketBuffer.Add (NewPacketBuffer N)).packets[m % N]?
          = some (some (ps.getD m [])) := by
  induction ps using List.reverseRecOn with
  | nil =>
      refine ⟨rfl, by simp [NewPacketBuffer], by simp [NewPacketBuffer],
        by simp [NewPacketBuffer], ?_⟩
      intro m hm
      simp at hm
  | append_singleton xs x ih =>
      obtain ⟨hsize, hlen, hhead, hcount, hcontent⟩ := ih
      rw [List.foldl_append, List.foldl_cons, List.foldl_nil] at *
      set pb := xs.foldl PacketBuffer.Add (NewPacketBuffer N) with hpb
      have hslot : xs.length % N < pb.packets.length := by
        rw [hlen]; exact Nat.mod_lt _ hN
      refine ⟨hsize, ?_, ?_, ?_, ?_⟩
      · simpa [PacketBuffer.Add] using hlen
      · simp only [PacketBuffer.Add, hhead, hsize, List.length_append,
          List.length_singleton]
        exact Nat.mod_add_mod xs.length N 1
      · simp only [PacketBuffer.Add, hcount, hsize, List.length_append,
          List.length_singleton]
        split_ifs <;> omega
      · intro m hm hge
        simp only [List.length_append, List.length_singleton] at hm hge
        simp only [PacketBuffer.Add, hhead]
        by_cases hmL : m = xs.length
        · subst hmL
          rw [List.getElem?_set_self hslot]
          have hgd : (xs ++ [x]).getD xs.length [] = x := by
            rw [List.getD_eq_getElem?_getD, List.getElem?_concat_length]
            rfl
          rw [hgd]
        · have hmlt : m < xs.length := by omega
          have hne : xs.length % N ≠ m % N := by
            intro heq
            have hdvd : N ∣ xs.length - m := (Nat.modEq_iff_dvd' (le_of_lt hmlt)).1 heq.symm
            have hpos : 0 < xs.length - m := by omega
            have := Nat.le_of_dvd hpos hdvd
            omega
          rw [List.getElem?_set_ne hne]
          have hgd : (xs ++ [x]).getD m [] = xs.getD m [] := by
            rw [List.getD_eq_getElem?_getD, List.getD_eq_getElem?_getD,
              List.getElem?_append_left hmlt]
          rw [hgd]
          exact hcontent m hmlt (by omega)

/-- GetAll of a buffer satisfying the invariant is the last min(L, N)
inserted packets, oldest first. -/
theorem getAll_eq_of_inv (pb : PacketBuffer) (ps : List (List Nat)) (N : Nat) (hN : 0 < N)
    (hsize : pb.size = N) (hhead : pb.head = ps.length % N)
    (hcount : pb.count = min ps.length N)
    (hcontent : ∀ m, m < ps.length → ps.length - N ≤ m →
      pb.packets[m % N]? = some (some (ps.getD m []))) :
    pb.GetAll = ps.drop (ps.length - N) := by
  simp only [PacketBuffer.GetAll, hsize, hhead, hcount]
  set L := ps.length with hL
  set cnt := min L N with hcnt
  have hcntN : cnt ≤ N := by omega
  have hcntL : cnt ≤ L := by omega
  have hdrop : L - cnt = L - N := by omega
  set start := if cnt ≤ L % N then L % N - cnt else L % N + N - cnt with hstart
  have hidx : ∀ i, (start + i) % N = (L - cnt + i) % N := by
    intro i
    have hq : L / N * N + L % N = L := Nat.div_add_mod' L N
    have hmlt : L % N < N := Nat.mod_lt _ hN
    obtain ⟨k, hk⟩ : ∃ k, L - cnt + i = start + i + k * N := by
      by_cases hc : cnt ≤ L % N
      · refine ⟨L / N, ?_⟩
        rw [hstart, if_pos hc]
        generalize hqt : L / N * N = t at hq ⊢
        omega
      · refine ⟨L / N - 1, ?_⟩
        rw [hstart, if_neg hc]
        push_neg at hc
        have hLN : N ≤ L := by
          by_contra hlt
          push_neg at hlt
          rw [Nat.mod_eq_of_lt hlt] at hc
          omega
        have hq1 : 1 ≤ L / N := (Nat.one_le_div_iff hN).2 hLN
        have ht2 : (L / N - 1) * N = L / N * N - N := by
          rw [Nat.sub_mul, Nat.one_mul]
        have ht3 : N ≤ L / N * N := by
          calc N = 1 * N := (Nat.one_mul N).symm
          _ ≤ L / N * N := Nat.mul_le_mul_right N hq1
        rw [ht2]
        generalize hqt : L / N * N = t at hq ht3 ⊢
        omega
    rw [hk, Nat.add_mul_mod_self_right]
  have hmap : (List.range cnt).map (fun i => pb.packets.getD ((start + i) % N) none)
      = (List.range cnt).map (some ∘ fun i => ps.getD (L - cnt + i) []) := by
    apply List.map_congr_left
    intro i hi
    rw [List.mem_range] at hi
    rw [hidx i]
    have h1 : L - cnt + i < L := by omega
    have h2 : L - N ≤ L - cnt + i := by omega
    rw [List.getD_eq_getElem?_getD, hcontent (L - cnt + i) h1 h2]
    rfl
  rw [hmap, ← List.map_map, reduceOption_map_some, ← hdrop]
  have hfin := range_getD_drop ps [] (L - cnt)
  have hc2 : ps.length - (L - cnt) = cnt := by omega
  rw [hc2] at hfin
  exact hfin

/-- Claim C8: after inserting k packets into a fresh ring buffer of
capacity N > 0, the buffer holds min(k, N) entries and GetAll returns
exactly the most recently added min(k, N) packets in insertion order
(oldest first); packets older than the last N are gone. -/
theorem ringBuffer_spec (N : Nat) (hN : 0 < N) (ps : List (List Nat)) :
    (ps.foldl PacketBuffer.Add (NewPacketBuffer N)).count = min ps.length N
    ∧ (ps.foldl PacketBuffer.Add (NewPacketBuffer N)).GetAll
        = ps.drop (ps.length - N) := by
  obtain ⟨hsize, _, hhead, hcount, hcontent⟩ := addFold_inv N hN ps
  exact ⟨hcount, getAll_eq_of_inv _ ps N hN hsize hhead hcount hcontent⟩

/-- Witness for claim C8: capacity 3, four packets; the buffer keeps the
last three in order. -/
theorem ringBuffer_spec_witness :
    ([[1], [2], [3], [4]].foldl PacketBuffer.Add (NewPacketBuffer 3)).count = 3
    ∧ ([[1], [2], [3], [4]].foldl PacketBuffer.Add (NewPacketBuffer 3)).GetAll
        = [[2], [3], [4]] :=
  ringBuffer_spec 3 (by decide) [[1], [2], [3], [4]]

/-! ## Claim C5: duplicate packets have no effect; fresh packets fan out -/

/-- Claim C5: when the packet hash is already in the dedup set,
RouteFromClient and RouteFromMesh leave the router state untouched and
emit nothing (no buffering, no session enqueue, no mesh emission);
otherwise RouteFromClient adds the packet to the ring buffer, enqueues it
to exactly the sessions other than the sender, and emits it to the mesh
link exactly when one is set. -/
theorem route_duplicate_noop (r : RouterState) (sender : Nat) (data : List Nat) :
    (PacketHash data ∈ r.dedup.seen →
      RouteFromClient r sender data = (r, []) ∧ RouteFromMesh r data = (r, []))
    ∧ (PacketHash data ∉ r.dedup.seen →
        (RouteFromClient r sender data).1.buffer = r.buffer.Add data
        ∧ (∀ c, Emit.toClient c data ∈ (RouteFromClient r sender data).2 ↔
            (c ∈ r.clients ∧ c ≠ sender))
        ∧ (Emit.toMesh data ∈ (RouteFromClient r sender data).2 ↔ r.hasMesh = true)) := by
  constructor
  · intro hmem
    constructor <;> simp [RouteFromClient, RouteFromMesh, IsDuplicate, hmem]
  · intro hmem
    refine ⟨?_, ?_, ?_⟩
    · by_cases hcap : r.dedup.max ≤ r.dedup.seen.card <;>
        simp [RouteFromClient, IsDuplicate, hmem, hcap]
    · intro c
      by_cases hm : r.hasMesh <;> by_cases hcap : r.dedup.max ≤ r.dedup.seen.card <;>
        simp [RouteFromClient, IsDuplicate, hmem, hm, hcap, List.mem_filter, and_comm]
    · by_cases hm : r.hasMesh <;> by_cases hcap : r.dedup.max ≤ r.dedup.seen.card <;>
        simp [RouteFromClient, IsDuplicate, hmem, hm, hcap]

/-- Witness for claim C5: a duplicate is a no-op on a concrete router. -/
theorem route_duplicate_noop_witness :
    RouteFromClient ⟨[1, 2], NewPacketBuffer 3, ⟨{PacketHash [7]}, 10⟩, true⟩ 1 [7]
        = (⟨[1, 2], NewPacketBuffer 3, ⟨{PacketHash [7]}, 10⟩, true⟩, [])
    ∧ RouteFromMesh ⟨[1, 2], NewPacketBuffer 3, ⟨{PacketHash [7]}, 10⟩, true⟩ [7]
        = (⟨[1, 2], NewPacketBuffer 3, ⟨{PacketHash [7]}, 10⟩, true⟩, []) :=
  (route_duplicate_noop _ 1 [7]).1 (Finset.mem_singleton.2 rfl)

/-! ## Claim C4: store-and-forward at session registration -/

theorem runOps_append (r : RouterState) (xs ys : List RouterOp) :
    runOps r (xs ++ ys)
      = ((runOps (runOps r xs).1 ys).1,
         (runOps r xs).2 ++ (runOps (runOps r xs).1 ys).2) := by
  induction xs generalizing r with
  | nil => simp [runOps]
  | cons op xs ih => simp [runOps, ih, List.append_assoc]

theorem sentTo_append (c : Nat) (t1 t2 : List Emit) :
    sentTo c (t1 ++ t2) = sentTo c t1 ++ sentTo c t2 := by
  simp [sentTo, List.filterMap_append]

theorem sentTo_toClient_self (c : Nat) (l : List (List Nat)) :
    sentTo c (l.map (Emit.toClient c)) = l := by
  induction l with
  | nil => rfl
  | cons x xs ih =>
      simp only [List.map_cons, sentTo, List.filterMap_cons, emitTo] at ih ⊢
      simp [ih]

/-- A routing operation does not change the client set or the mesh flag. -/
theorem stepOp_route_clients_eq (r : RouterState) (op : RouterOp) (p : List Nat)
    (hop : op.routedData = some p) :
    (stepOp r op).1.clients = r.clients ∧ (stepOp r op).1.hasMesh = r.hasMesh := by
  cases op with
  | fromClient s d =>
      simp only [stepOp, RouteFromClient]
      split_ifs <;> simp
  | fromMesh d =>
      simp only [stepOp, RouteFromMesh]
      split_ifs <;> simp
  | addClient c2 => simp [RouterOp.routedData] at hop

/-- A routing operation sends nothing to a client that is not registered. -/
theorem stepOp_route_sentTo_nil (r : RouterState) (op : RouterOp) (p : List Nat) (c : Nat)
    (hop : op.routedData = some p) (hc : c ∉ r.clients) :
    sentTo c (stepOp r op).2 = [] := by
  have hclients : ∀ l : List Nat, (∀ x ∈ l, x ∈ r.clients) →
      List.filterMap (emitTo c) (l.map fun x => Emit.toClient x p) = [] := by
    intro l hl
    rw [List.filterMap_map]
    rw [List.filterMap_eq_nil_iff]
    intro x hx
    have hxc : x ≠ c := fun hxc => hc (hxc ▸ hl x hx)
    simp [emitTo, hxc]
  cases op with
  | fromClient s d =>
      have hd : d = p := by simpa [RouterOp.routedData] using hop
      subst hd
      have hfan := hclients (List.filter (fun x => decide (x ≠ s)) r.clients)
        (fun x hx => (List.mem_filter.1 hx).1)
      simp only [stepOp, RouteFromClient]
      split_ifs with h1 h2
      · simp [sentTo]
      · simp only [sentTo, List.filterMap_append]
        rw [hfan]
        simp [emitTo]
      · simp only [sentTo, List.filterMap_append]
        rw [hfan]
        simp
  | fromMesh d =>
      have hd : d = p := by simpa [RouterOp.routedData] using hop
      subst hd
      have hfan := hclients r.clients (fun x hx => hx)
      simp only [stepOp, RouteFromMesh]
      split_ifs with h1
      · simp [sentTo]
      · simp only [sentTo]
        exact hfan
  | addClient c2 => simp [RouterOp.routedData] at hop

/-- A routing operation on a fresh (non-duplicate) packet adds it to the
ring buffer, and grows the dedup set by at most that packet hash. -/
theorem stepOp_route_nondup (r : RouterState) (op : RouterOp) (p : List Nat)
    (hop : op.routedData = some p) (hfresh : PacketHash p ∉ r.dedup.seen) :
    (stepOp r op).1.buffer = r.buffer.Add p
    ∧ (stepOp r op).1.dedup.seen ⊆ insert (PacketHash p) r.dedup.seen := by
  cases op with
  | fromClient s d =>
      have hd : d = p := by simpa [RouterOp.routedData] using hop
      subst hd
      by_cases hcap : r.dedup.max ≤ r.dedup.seen.card <;>
        simp [stepOp, RouteFromClient, IsDuplicate, hfresh, hcap, Finset.subset_iff]
  | fromMesh d =>
      have hd : d = p := by simpa [RouterOp.routedData] using hop
      subst hd
      by_cases hcap : r.dedup.max ≤ r.dedup.seen.card <;>
        simp [stepOp, RouteFromMesh, IsDuplicate, hfresh, hcap, Finset.subset_iff]
  | addClient c2 => simp [RouterOp.routedData] at hop

/-- Running a sequence of routing operations with pairwise-distinct fresh
hashes inserts every packet into the ring buffer in order, keeps the
client set unchanged, and sends nothing to an unregistered client. -/
theorem runOps_routed (c : Nat) :
    ∀ (ops : List RouterOp) (ps : List (List Nat)) (r : RouterState),
    ops.map RouterOp.routedData = ps.map some →
    (ps.map PacketHash).Pairwise (· ≠ ·) →
    (∀ q ∈ ps, PacketHash q ∉ r.dedup.seen) →
    (runOps r ops).1.buffer = ps.foldl PacketBuffer.Add r.buffer
    ∧ (runOps r ops).1.clients = r.clients
    ∧ (c ∉ r.clients → sentTo c (runOps r ops).2 = []) := by
  intro ops
  induction ops with
  | nil =>
      intro ps r hmap _ _
      have hps : ps = [] := by
        cases ps with
        | nil => rfl
        | cons q qs => simp at hmap
      subst hps
      simp [runOps, sentTo]
  | cons op ops ih =>
      intro ps r hmap hdist hfresh
      cases ps with
      | nil => simp at hmap
      | cons p ps2 =>
          simp only [List.map_cons, List.cons.injEq] at hmap
          obtain ⟨hop, hmap2⟩ := hmap
          obtain ⟨hbuf, hsub⟩ :=
            stepOp_route_nondup r op p hop (hfresh p (List.mem_cons_self p ps2))
          obtain ⟨hcl, hms⟩ := stepOp_route_clients_eq r op p hop
          rw [List.map_cons, List.pairwise_cons] at hdist
          obtain ⟨hne, hdist2⟩ := hdist
          have hfresh2 : ∀ q ∈ ps2, PacketHash q ∉ (stepOp r op).1.dedup.seen := by
            intro q hq hmem
            rcases Finset.mem_insert.1 (hsub hmem) with heq | hmem2
            · exact hne (PacketHash q) (List.mem_map_of_mem _ hq) heq.symm
            · exact hfresh q (List.mem_cons_of_mem _ hq) hmem2
          obtain ⟨ihbuf, ihcl, ihsent⟩ := ih ps2 (stepOp r op).1 hmap2 hdist2 hfresh2
          refine ⟨?_, ?_, ?_⟩
          · show (runOps (stepOp r op).1 ops).1.buffer = _
            rw [ihbuf, hbuf, List.foldl_cons]
          · show (runOps (stepOp r op).1 ops).1.clients = _
            rw [ihcl, hcl]
          · intro hcnot
            show sentTo c ((stepOp r op).2 ++ (runOps (stepOp r op).1 ops).2) = []
            rw [sentTo_append, stepOp_route_sentTo_nil r op p c hop hcnot,
              ihsent (by rwa [hcl])]
            rfl

/-- Claim C4: after k packets with pairwise-distinct hashes have been
routed (from clients or from the mesh, in any order) on a fresh router
with buffer capacity N > 0, a session added by AddClient receives,
synchronously at registration, exactly the most recent min(k, N) of those
packets in insertion order — and everything it receives afterwards comes
from the operations that follow its registration. -/
theorem addSession_store_forward (ops qs : List RouterOp) (ps : List (List Nat))
    (c : Nat) (N M : Nat) (hN : 0 < N)
    (hops : ops.map RouterOp.routedData = ps.map some)
    (hdist : (ps.map PacketHash).Pairwise (· ≠ ·)) :
    sentTo c (runOps (NewRouter N M) (ops ++ RouterOp.addClient c :: qs)).2
      = ps.drop (ps.length - N)
        ++ sentTo c (runOps
            (runOps (NewRouter N M) (ops ++ [RouterOp.addClient c])).1 qs).2 := by
  have hassoc : ops ++ RouterOp.addClient c :: qs
      = (ops ++ [RouterOp.addClient c]) ++ qs := by simp
  rw [hassoc, runOps_append, sentTo_append]
  congr 1
  rw [runOps_append, sentTo_append]
  obtain ⟨hbuf, hclients, hsent⟩ := runOps_routed c ops ps (NewRouter N M) hops hdist
    (by intro q hq; simp [NewRouter, NewDedupFilter])
  rw [hsent (by simp [NewRouter])]
  have hsingle : (runOps (runOps (NewRouter N M) ops).1 [RouterOp.addClient c]).2
      = (runOps (NewRouter N M) ops).1.buffer.GetAll.map (Emit.toClient c) := by
    simp [runOps, stepOp, AddClient]
  rw [hsingle, sentTo_toClient_self, List.nil_append]
  rw [hbuf]
  have hbuf0 : (NewRouter N M).buffer = NewPacketBuffer N := rfl
  rw [hbuf0]
  obtain ⟨hsize, _, hhead, hcount, hcontent⟩ := addFold_inv N hN ps
  exact getAll_eq_of_inv _ ps N hN hsize hhead hcount hcontent

/-- Witness for claim C4: the store-and-forward scenario of the
specification — buffer capacity 3, packets 1,2,3,4 arrive from the mesh,
then a client registers and receives packets 2,3,4 in order. -/
theorem addSession_store_forward_witness :
    sentTo 7 (runOps (NewRouter 3 10)
        ([RouterOp.fromMesh [1], RouterOp.fromMesh [2],
          RouterOp.fromMesh [3], RouterOp.fromMesh [4]]
          ++ RouterOp.addClient 7 :: [])).2
      = [[2], [3], [4]]
        ++ sentTo 7 (runOps (runOps (NewRouter 3 10)
            ([RouterOp.fromMesh [1], RouterOp.fromMesh [2],
              RouterOp.fromMesh [3], RouterOp.fromMesh [4]]
              ++ [RouterOp.addClient 7])).1 []).2 :=
  addSession_store_forward
    [RouterOp.fromMesh [1], RouterOp.fromMesh [2],
     RouterOp.fromMesh [3], RouterOp.fromMesh [4]]
    [] [[1], [2], [3], [4]] 7 3 10 (by decide) (by decide) (by decide)

/-! ## Claim C9: token bucket admission bound -/

/-- Allow keeps the capacity and rate, and moves lastRefill to now. -/
theorem allow_next (tb : TokenBucket) (now : ℚ) :
    (tb.Allow now).2.maxTokens = tb.maxTokens
    ∧ (tb.Allow now).2.refillRate = tb.refillRate
    ∧ (tb.Allow now).2.lastRefill = now := by
  simp only [TokenBucket.Allow]
  split_ifs <;> simp

/-- One Allow call: the new token count plus the admitted amount is bounded
by the refilled count and by the capacity, and stays nonnegative under
forward-moving time. -/
theorem allow_bounds (tb : TokenBucket) (now : ℚ) :
    (tb.Allow now).2.tokens + (if (tb.Allow now).1 then (1 : ℚ) else 0)
        ≤ tb.tokens + (now - tb.lastRefill) * tb.refillRate
    ∧ (tb.Allow now).2.tokens + (if (tb.Allow now).1 then (1 : ℚ) else 0) ≤ tb.maxTokens
    ∧ (0 ≤ tb.tokens → 0 ≤ tb.refillRate → 0 ≤ tb.maxTokens → tb.lastRefill ≤ now →
        0 ≤ (tb.Allow now).2.tokens) := by
  have hprod : 0 ≤ tb.tokens → 0 ≤ tb.refillRate → tb.lastRefill ≤ now →
      0 ≤ tb.tokens + (now - tb.lastRefill) * tb.refillRate := by
    intro h1 h2 h3
    have := mul_nonneg (sub_nonneg.2 h3) h2
    linarith
  simp only [TokenBucket.Allow]
  split_ifs <;> try contradiction
  all_goals
    refine ⟨?_, ?_, fun h1 h2 h3 h4 => ?_⟩ <;>
      dsimp only <;>
      first
        | linarith
        | linarith [hprod h1 h2 h4]

/-- Counting lemma: from any state with nonnegative tokens, along
nondecreasing call times, the number of admissions is bounded by the
starting tokens plus the refill over the spanned interval. -/
theorem runAllow_count_le : ∀ (ts : List ℚ) (tb : TokenBucket),
    0 ≤ tb.tokens → 0 ≤ tb.refillRate → 0 ≤ tb.maxTokens →
    List.Chain (· ≤ ·) tb.lastRefill ts →
    ((runAllow tb ts).1 : ℚ)
      ≤ tb.tokens + (ts.getLastD tb.lastRefill - tb.lastRefill) * tb.refillRate := by
  intro ts
  induction ts with
  | nil =>
      intro tb h0 _ _ _
      simp [runAllow, h0]
  | cons t ts ih =>
      intro tb h0 hrate hmax hchain
      rw [List.chain_cons] at hchain
      obtain ⟨hle, hchain2⟩ := hchain
      obtain ⟨hA, hB, hC⟩ := allow_bounds tb t
      obtain ⟨hmax2, hrate2, hlast2⟩ := allow_next tb t
      have h0' : 0 ≤ (tb.Allow t).2.tokens := hC h0 hrate hmax hle
      have ihh := ih (tb.Allow t).2 h0' (by rwa [hrate2]) (by rwa [hmax2])
        (by rwa [hlast2])
      rw [hrate2, hlast2] at ihh
      have hcount : ((runAllow tb (t :: ts)).1 : ℚ)
          = (if (tb.Allow t).1 then (1 : ℚ) else 0)
            + ((runAllow (tb.Allow t).2 ts).1 : ℚ) := by
        by_cases hadm : (tb.Allow t).1 <;> simp [runAllow, hadm]
      rw [hcount, List.getLastD_cons]
      have hring : (t - tb.lastRefill) * tb.refillRate
            + (ts.getLastD t - t) * tb.refillRate
          = (ts.getLastD t - tb.lastRefill) * tb.refillRate := by ring
      linarith

/-- Tail chains: a chain over an append yields a chain on the head part
and a chain on the tail part starting from the last element. -/
theorem chain_append_getLastD {a : ℚ} : ∀ (xs ys : List ℚ),
    List.Chain (· ≤ ·) a (xs ++ ys) →
    List.Chain (· ≤ ·) a xs ∧ List.Chain (· ≤ ·) (xs.getLastD a) ys := by
  intro xs
  induction xs generalizing a with
  | nil =>
      intro ys h
      exact ⟨List.Chain.nil, by simpa using h⟩
  | cons x xs ih =>
      intro ys h
      rw [List.cons_append, List.chain_cons] at h
      obtain ⟨hax, h2⟩ := h
      obtain ⟨hc1, hc2⟩ := ih ys h2
      refine ⟨List.chain_cons.2 ⟨hax, hc1⟩, ?_⟩
      rw [List.getLastD_cons]
      exact hc2

/-- The state after a run of Allow calls: tokens stay nonnegative,
capacity and rate are preserved, lastRefill is the last call time. -/
theorem runAllow_state : ∀ (ts : List ℚ) (tb : TokenBucket),
    0 ≤ tb.tokens → 0 ≤ tb.refillRate → 0 ≤ tb.maxTokens →
    List.Chain (· ≤ ·) tb.lastRefill ts →
    0 ≤ (runAllow tb ts).2.tokens
    ∧ (runAllow tb ts).2.maxTokens = tb.maxTokens
    ∧ (runAllow tb ts).2.refillRate = tb.refillRate
    ∧ (runAllow tb ts).2.lastRefill = ts.getLastD tb.lastRefill := by
  intro ts
  induction ts with
  | nil =>
      intro tb h0 _ _ _
      exact ⟨h0, rfl, rfl, rfl⟩
  | cons t ts ih =>
      intro tb h0 hrate hmax hchain
      rw [List.chain_cons] at hchain
      obtain ⟨hle, hchain2⟩ := hchain
      obtain ⟨hA, hB, hC⟩ := allow_bounds tb t
      obtain ⟨hmax2, hrate2, hlast2⟩ := allow_next tb t
      have h0' : 0 ≤ (tb.Allow t).2.tokens := hC h0 hrate hmax hle
      obtain ⟨ih0, ihmax, ihrate, ihlast⟩ := ih (tb.Allow t).2 h0' (by rwa [hrate2])
        (by rwa [hmax2]) (by rwa [hlast2])
      refine ⟨?_, ?_, ?_, ?_⟩
      · simpa [runAllow] using ih0
      · simp only [runAllow]
        rw [ihmax, hmax2]
      · simp only [runAllow]
        rw [ihrate, hrate2]
      · simp only [runAllow]
        rw [ihlast, hlast2, List.getLastD_cons]

theorem getLastD_mem_cons {α : Type _} : ∀ (l : List α) (a : α), l.getLastD a ∈ a :: l := by
  intro l
  induction l with
  | nil => intro a; simp [List.getLastD]
  | cons x xs ih =>
      intro a
      rw [List.getLastD_cons]
      exact List.mem_cons_of_mem a (ih x)

/-- Claim C9: a token bucket with refill rate r ≥ 0 and burst size b ≥ 0
admits at most b + r·T calls across any window of length T: whatever
calls happened before the window, the admissions at call times that all
lie within [w, w + T] number at most b + r·T. -/
theorem tokenBucket_window_bound (rate : ℚ) (burst : ℤ) (t0 w T : ℚ)
    (pre mid : List ℚ)
    (hrate : 0 ≤ rate) (hburst : 0 ≤ burst) (hT : 0 ≤ T)
    (hchain : List.Chain (· ≤ ·) t0 (pre ++ mid))
    (hmid : ∀ t ∈ mid, w ≤ t ∧ t ≤ w + T) :
    ((runAllow (runAllow (NewTokenBucket rate burst t0) pre).2 mid).1 : ℚ)
      ≤ (burst : ℚ) + rate * T := by
  obtain ⟨hcpre, hcmid⟩ := chain_append_getLastD pre mid hchain
  have hb0 : (0 : ℚ) ≤ (burst : ℚ) := by exact_mod_cast hburst
  obtain ⟨hs0, hsmax, hsrate, hslast⟩ := runAllow_state pre (NewTokenBucket rate burst t0)
    hb0 hrate hb0 hcpre
  set σ := (runAllow (NewTokenBucket rate burst t0) pre).2 with hσ
  have hfmax : σ.maxTokens = (burst : ℚ) := hsmax
  have hfrate : σ.refillRate = rate := hsrate
  have hflast : σ.lastRefill = pre.getLastD t0 := hslast
  cases mid with
  | nil =>
      simp only [runAllow, Nat.cast_zero]
      have := mul_nonneg hrate hT
      linarith
  | cons m rest =>
      rw [List.chain_cons] at hcmid
      obtain ⟨hlm, hcrest⟩ := hcmid
      obtain ⟨hA, hB, hC⟩ := allow_bounds σ m
      obtain ⟨hm2, hr2, hl2⟩ := allow_next σ m
      have h0' : 0 ≤ (σ.Allow m).2.tokens := by
        refine hC hs0 ?_ ?_ ?_
        · rw [hfrate]; exact hrate
        · rw [hfmax]; exact hb0
        · rw [hflast]; exact hlm
      have hcount := runAllow_count_le rest (σ.Allow m).2 h0'
        (by rw [hr2, hfrate]; exact hrate)
        (by rw [hm2, hfmax]; exact hb0)
        (by rwa [hl2])
      rw [hr2, hl2, hfrate] at hcount
      have hXmem := getLastD_mem_cons rest m
      have hX := hmid _ hXmem
      have hm := hmid m (List.mem_cons_self m rest)
      have hrle : (rest.getLastD m - m) * rate ≤ rate * T := by
        have h1 : rest.getLastD m - m ≤ T := by linarith [hX.1, hX.2, hm.1]
        calc (rest.getLastD m - m) * rate ≤ T * rate :=
              mul_le_mul_of_nonneg_right h1 hrate
        _ = rate * T := mul_comm T rate
      rw [hfmax] at hB
      have hsplit : ((runAllow σ (m :: rest)).1 : ℚ)
          = (if (σ.Allow m).1 then (1 : ℚ) else 0)
            + ((runAllow (σ.Allow m).2 rest).1 : ℚ) := by
        by_cases hadm : (σ.Allow m).1 <;> simp [runAllow, hadm]
      rw [hsplit]
      linarith

/-- Witness for claim C9: bucket (rate 1, burst 2) starting at time 0 with
a single call at time 0 inside the degenerate window [0, 0]. -/
theorem tokenBucket_window_bound_witness :
    ((runAllow (runAllow (NewTokenBucket 1 2 0) []).2 [0]).1 : ℚ) ≤ (2 : ℚ) + 1 * 0 := by
  have h := tokenBucket_window_bound 1 2 0 0 0 [] [0]
    (by norm_num) (by norm_num) (le_refl 0)
    (by simp [List.chain_cons])
    (by intro t ht; simp at ht; simp [ht])
  simpa using h

end BitchatRelay
